import Mathlib

/-!
Verification of the surface-code decoding pipeline described in the
repository's specification, against a shallow embedding of the tutorial
notebook `tutorials/3_testing_and_noise_models.ipynb` and of the
`surface_code` package components it exercises.  The notebook's own
functions (`full_loop`, `stabilize`, `get_stabilized_circ`) are embedded
directly from their source; the `surface_code` package itself
(`GraphDecoder`, `SurfaceCode`, `SurfaceCodeBenchmarkingTool`) is not part
of the given sources, so its operations are modelled from the
specification's component contracts (each such definition carries a
`Modelled from the spec` doc comment).
-/

namespace SurfaceCodes

/-- A space-time lattice coordinate `(row, column, time-round)` identifying a
stabilizer location at a given measurement round. -/
abbrev Coord : Type := Nat × Nat × Nat

/-- A decoder-graph node: a flag marking virtual boundary nodes, together
with a lattice coordinate.  Real defects carry `false`, virtual boundary
nodes carry `true`. -/
abbrev Node : Type := Bool × Coord

/-- A physical data qubit identified by its `(row, column)` position. -/
abbrev Qb : Type := Nat × Nat

/-- Distance between two naturals, `|a - b|`. -/
def ndist (a b : Nat) : Nat := max a b - min a b

/-- Space part of the closed-form lattice distance: row offset plus column
offset. -/
def spaceDist (a b : Coord) : Nat := ndist a.1 b.1 + ndist a.2.1 b.2.1

/-- Time part of the closed-form lattice distance: round separation. -/
def timeDist (a b : Coord) : Nat := ndist a.2.2 b.2.2

/-- Modelled from the spec: the Decoder Graph Builder's closed-form distance
function over lattice coordinates and round separation, "space distance plus
time distance". -/
def distCoord (a b : Coord) : Nat := spaceDist a b + timeDist a b

/-- One step of a lattice walk from `x` toward `y`. -/
def stepToward (x y : Nat) : Nat :=
  if x < y then x + 1 else if y < x then x - 1 else x

/-- Fuel-bounded walk across the lattice from position `p` to position `q`,
collecting the data-qubit positions stepped onto (rows first, then
columns). -/
def walk : Nat → Qb → Qb → List Qb
  | 0, _, _ => []
  | fuel + 1, p, q =>
      if p = q then []
      else
        let next : Qb :=
          if p.1 ≠ q.1 then (stepToward p.1 q.1, p.2) else (p.1, stepToward p.2 q.2)
        next :: walk fuel next q

/-- Modelled from the spec: the explicit physical-qubit chain realizing the
closed-form distance between two lattice coordinates (time-like steps add no
physical qubits). -/
def chainCoords (a b : Coord) : List Qb :=
  walk (spaceDist a b) (a.1, a.2.1) (b.1, b.2.1)

/-- The chain realizing the connection of two decoder-graph nodes: two
virtual boundary nodes are connected by a degenerate empty chain, every
other pair by the geometric chain between their coordinates. -/
def chainOf (u v : Node) : List Qb :=
  if u.1 && v.1 then [] else chainCoords u.2 v.2

/-- A decoder graph: the list of its nodes together with a weight function.
Edge weights are non-negative integer distances. -/
structure Graph where
  nodes : List Node
  weight : Node → Node → Nat

/-- Modelled from the spec: edge-weight policy of the decoder graph — the
minimum number of elementary error events connecting the endpoints;
boundary-boundary edges have zero cost (the boundary has unlimited
absorption capacity). -/
def edgeWeight (u v : Node) : Nat :=
  if u.1 && v.1 then 0 else distCoord u.2 v.2

/-- All ordered pairs `(l i, l j)` with `i < j` of a list, in a fixed
enumeration order. -/
def orderedPairs {α : Type} : List α → List (α × α)
  | [] => []
  | a :: rest => rest.map (fun b => (a, b)) ++ orderedPairs rest

/-- Fuel-bounded enumeration of all perfect pairings of the elements of a
list, in a fixed order determined by the node ordering of the list; the
fuel only needs to dominate the list length. -/
def pairingsFuel {α : Type} [DecidableEq α] : Nat → List α → List (List (α × α))
  | _, [] => [[]]
  | 0, _ :: _ => []
  | fuel + 1, a :: rest =>
      (rest.map (fun b =>
        (pairingsFuel fuel (rest.erase b)).map (fun m => (a, b) :: m))).flatten

/-- All perfect pairings of the elements of a list, in a fixed enumeration
order determined by the node ordering of the list. -/
def pairings {α : Type} [DecidableEq α] (l : List α) : List (List (α × α)) :=
  pairingsFuel l.length l

/-- Total weight of a pairing under a graph's weight function. -/
def weightOf (g : Graph) (m : List (Node × Node)) : Nat :=
  (m.map (fun p => g.weight p.1 p.2)).sum

/-- First minimum of a list under a cost function: ties are broken in favour
of the earlier element of the fixed enumeration order. -/
def argminFirst {α : Type} (f : α → Nat) : List α → Option α
  | [] => none
  | a :: rest =>
      match argminFirst f rest with
      | none => some a
      | some b => if f a ≤ f b then some a else some b

/-- Association lookup by key, first match wins. -/
def lookupPair {α β : Type} [DecidableEq α] (k : α) : List (α × β) → Option β
  | [] => none
  | e :: rest => if e.1 = k then some e.2 else lookupPair k rest

/-- A path map: for selected node pairs, the physical-qubit chain realizing
their connection. -/
abbrev PathMap : Type := List ((Node × Node) × List Qb)

/-- The analytic builder's path map: one explicit chain per edge (per
ordered node pair) of the graph. -/
def allPaths (nodes : List Node) : PathMap :=
  (orderedPairs nodes).map (fun p => (p, chainOf p.1 p.2))

/-- Modelled from the spec: the decoder-graph-builder configuration — code
distance, round count, and the mode flag (`simulation = true` selects the
empirically-constructed simulated graph, `false` the analytic one); it is
constructed once per configuration and reused across decode calls. -/
structure GraphDecoder where
  d : Nat
  T : Nat
  simulation : Bool
deriving DecidableEq

/-- Modelled from the spec: the virtual boundary coordinate nearest to a
defect — the boundary edge uses the precomputed minimum distance from the
defect to the nearest boundary point, with asymmetric handling of the two
error types (one type absorbs at the row boundary, the other at the column
boundary). -/
def boundaryCoord (d : Nat) (key : String) (c : Coord) : Coord :=
  if key = "Z" then
    ((if c.1 + 1 ≤ d - c.1 then 0 else d - 1), c.2.1, c.2.2)
  else
    (c.1, (if c.2.1 + 1 ≤ d - c.2.1 then 0 else d - 1), c.2.2)

/-- Modelled from the spec: the node set of the decoder graph for a given
defect set — every defect exactly once, plus enough virtual boundary nodes
(one per defect) to guarantee a feasible perfect matching exists. -/
def graphNodes (dec : GraphDecoder) (errors : List Coord) (key : String) : List Node :=
  errors.map (fun c => (false, c)) ++ errors.map (fun c => (true, boundaryCoord dec.d key c))

/-- Modelled from the spec: the Decoder Graph Builder.  In analytic mode it
returns both the graph and, per edge, the explicit physical-qubit chain
realizing the distance; in simulated mode it returns only the graph with no
chain information.  Both modes describe the same underlying lattice, so the
graph itself is the same weighted graph over the defect set. -/
def GraphDecoder.make_error_graph (dec : GraphDecoder) (errors : List Coord)
    (key : String) : Graph × Option PathMap :=
  let nodes := graphNodes dec errors key
  let g : Graph := ⟨nodes, edgeWeight⟩
  if dec.simulation then (g, none) else (g, some (allPaths nodes))

/-- Modelled from the spec: preparation of the matching graph handed to the
Matcher — the decoder graph augmented with boundary nodes.  The
augmentation (one virtual node per defect, zero-cost boundary-boundary
edges) is already part of `make_error_graph` in this model, so the graph is
passed through unchanged. -/
def GraphDecoder.matching_graph (_dec : GraphDecoder) (g : Graph) (_key : String) : Graph := g

/-- Modelled from the spec: the Matcher — a deterministic minimum-weight
perfect matching over the given graph, ties broken consistently by the
fixed node ordering, so that repeated runs on identical input produce
identical output.  It is a function of the graph alone. -/
def GraphDecoder.matching (_dec : GraphDecoder) (g : Graph) (_key : String) :
    List (Node × Node) :=
  (argminFirst (weightOf g) (pairings g.nodes)).getD []

/-- Modelled from the spec: the Path Reconstructor (simulated mode only) —
recomputes, from lattice geometry alone (the same geometry the analytic
builder would have used), the shortest chain connecting each matched
pair. -/
def GraphDecoder.analytic_paths (_dec : GraphDecoder) (ms : List (Node × Node))
    (_key : String) : PathMap :=
  ms.map (fun p => (p, chainOf p.1 p.2))

/-- Toggle a qubit's parity bit in a flip map: a present qubit is removed, an
absent one added (XOR accumulation). -/
def toggle (s : Finset Qb) (q : Qb) : Finset Qb :=
  if q ∈ s then s.erase q else insert q s

/-- XOR-accumulate all the qubits of one chain into a flip map. -/
def applyChain (s : Finset Qb) (ch : List Qb) : Finset Qb :=
  ch.foldl toggle s

/-- Modelled from the spec: the Flip Calculator — XOR-accumulate chain
qubits across all matched pairs; a qubit touched an even number of times
nets to no flip. -/
def GraphDecoder.calculate_qubit_flips (_dec : GraphDecoder)
    (ms : List (Node × Node)) (paths : PathMap) (_key : String) : Finset Qb :=
  ms.foldl (fun s p => applyChain s ((lookupPair p paths).getD [])) ∅

/-- The three Pauli correction labels; a qubit flipped by both error types
receives the distinct combined-error correction `Y`. -/
inductive Pauli where
  | X
  | Z
  | Y
deriving DecidableEq

/-- Modelled from the spec: merging the X and Z flip maps into one combined
correction map; a qubit flipped by both is tracked as the distinct
combined-error correction `Y` rather than two independent flips. -/
def net_qubit_flips (fx fz : Finset Qb) : Finset (Qb × Pauli) :=
  (fx ∪ fz).image (fun q =>
    (q, if q ∈ fx then (if q ∈ fz then Pauli.Y else Pauli.X) else Pauli.Z))

/-- One decode call of `full_loop` for one error type's non-empty defect
set, embedded from the notebook: build the error graph, build the matching
graph, match, obtain chains (from the builder in analytic mode, from the
Path Reconstructor in simulated mode), and compute the qubit flips. -/
def decodeOne (dec : GraphDecoder) (errors : List Coord) (key : String) : Finset Qb :=
  let gp := dec.make_error_graph errors key
  let mg := dec.matching_graph gp.1 key
  let ms := dec.matching mg key
  let paths := if dec.simulation then dec.analytic_paths ms key else gp.2.getD []
  dec.calculate_qubit_flips ms paths key

/-- Insertion-ordered dictionary update, as Python's `flips[key] = v`. -/
def dictInsert {β : Type} (m : List (String × β)) (k : String) (v : β) :
    List (String × β) :=
  match m with
  | [] => [(k, v)]
  | e :: rest => if e.1 = k then (k, v) :: rest else e :: dictInsert rest k v

/-- The `flips` dictionary built by one decoder branch of the notebook's
`full_loop`: iterate over `[("X", X_errors), ("Z", Z_errors)]`, decoding
when the defect list is non-empty and storing an empty flip map
otherwise. -/
def branchFlips (dec : GraphDecoder) (xe ze : List Coord) : List (String × Finset Qb) :=
  [("X", xe), ("Z", ze)].foldl
    (fun m kv => dictInsert m kv.1 (if kv.2 ≠ [] then decodeOne dec kv.2 kv.1 else ∅)) []

/-- The merged correction printed by one decoder branch of `full_loop`:
`net_qubit_flips(flips["X"], flips["Z"])`. -/
def fullLoopNet (dec : GraphDecoder) (xe ze : List Coord) : Finset (Qb × Pauli) :=
  let flips := branchFlips dec xe ze
  net_qubit_flips ((lookupPair "X" flips).getD ∅) ((lookupPair "Z" flips).getD ∅)

/-- Total number of times a qubit is touched across all matched pairs'
chains. -/
def chainTouches (ms : List (Node × Node)) (paths : PathMap) (q : Qb) : Nat :=
  ((ms.map (fun p => (lookupPair p paths).getD [])).flatten).count q

/-- A parsed measurement outcome for one shot: the logical-qubit readout bit
and, for each error type, the per-round stabilizer outcome groups. -/
structure Outcome where
  readout : Bool
  xRounds : List (List Bool)
  zRounds : List (List Bool)
deriving DecidableEq

/-- Positions at which two adjacent rounds' stabilizer outcomes differ
(bitwise XOR is 1); positions beyond a round's recorded bits read as 0. -/
def diffPositions (prev cur : List Bool) : List Nat :=
  (List.range cur.length).filter (fun j => cur.getD j false != prev.getD j false)

/-- Modelled from the spec: the Syndrome Extractor's round-to-round scan —
compare each round with the previous one (starting from a synthetic round 0
of all-zero outcomes) and emit a defect at the later round for every
position where the bitwise difference is 1; a stabilizer index is laid out
on the lattice as `(index / d, index % d)`. -/
def extractAux (d : Nat) (prev : List Bool) (t : Nat) :
    List (List Bool) → List Coord
  | [] => []
  | r :: rest =>
      (diffPositions prev r).map (fun j => (j / d, j % d, t)) ++ extractAux d r (t + 1) rest

/-- Modelled from the spec: the Syndrome Extractor — turn one parsed
measurement outcome into the two per-error-type defect sets. -/
def extract_nodes (d : Nat) (o : Outcome) : List Coord × List Coord :=
  (extractAux d [] 1 o.xRounds, extractAux d [] 1 o.zRounds)

/-- The physical data qubits supporting the logical operator whose readout
the Benchmarking Tool corrects (the first lattice row). -/
def logicalSupport (d : Nat) : Finset Qb :=
  (Finset.range d).image (fun c => (0, c))

/-- Modelled from the spec: one full pipeline run of the Benchmarking Tool
on a single outcome — extraction, then per error type graph construction,
matching and flip calculation (skipped when that type has no defects),
merging, and application of the resulting correction to the raw
logical-qubit readout bit (the readout is toggled by an odd number of
bit-flip-type corrections on the logical operator's support). -/
def corrected_readout (dec : GraphDecoder) (o : Outcome) : Bool :=
  let xe := (extract_nodes dec.d o).1
  let ze := (extract_nodes dec.d o).2
  let fx := if xe ≠ [] then decodeOne dec xe "X" else ∅
  let fz := if ze ≠ [] then decodeOne dec ze "Z" else ∅
  let net := net_qubit_flips fx fz
  xor o.readout
    (decide (Odd ((net.filter
      (fun p => p.1 ∈ logicalSupport dec.d ∧ p.2 ≠ Pauli.Z)).card)))

/-- The occurrence-count weight one histogram entry contributes to the
mismatch tally: its count when the corrected readout differs from the
expected logical value, zero otherwise. -/
def mismatch_weight (dec : GraphDecoder) (expected : Bool) (oc : Outcome × Nat) : Nat :=
  if corrected_readout dec oc.1 ≠ expected then oc.2 else 0

/-- Modelled from the spec: the Benchmarking Tool's `logical_error_rate` —
decode each distinct outcome once, accumulate mismatch counts weighted by
each outcome's occurrence count, and divide by the total number of
shots. -/
def logical_error_rate (dec : GraphDecoder) (hist : List (Outcome × Nat))
    (expected : Bool) : ℚ :=
  ((hist.map (mismatch_weight dec expected)).sum : ℚ) / ((hist.map Prod.snd).sum : ℚ)

/-- The all-zero-syndrome outcome: every stabilizer reads 0 in every round,
with an arbitrary raw logical readout bit. -/
def zeroOutcome (ro : Bool) (T ns : Nat) : Outcome :=
  ⟨ro, List.replicate T (List.replicate ns false), List.replicate T (List.replicate ns false)⟩

/-- Qubits of the distance-3 notebook circuit: nine data qubits, four
Z-syndrome ancillas, four X-syndrome ancillas, and the logical ancilla. -/
inductive Qubit where
  | data (i : Nat)
  | mz (i : Nat)
  | mx (i : Nat)
  | logical
deriving DecidableEq

/-- Circuit instructions used by the notebook's stabilization cycle; a
classical bit is addressed as `(round register index, bit index)`. -/
inductive Instr where
  | h (q : Qubit)
  | cx (a b : Qubit)
  | barrier
  | measure (q : Qubit) (c : Nat × Nat)
  | reset (q : Qubit)
deriving DecidableEq

/-- A circuit is its instruction sequence. -/
abbrev Circuit : Type := List Instr

/-- The instruction sequence of one stabilization round `i`, embedded from
the notebook's `stabilize` function. -/
def stabRound (i : Nat) : List Instr :=
  [Instr.h (Qubit.mx 0),
   Instr.cx (Qubit.mx 0) (Qubit.data 1),
   Instr.cx (Qubit.mx 0) (Qubit.data 0),
   Instr.cx (Qubit.data 1) (Qubit.mz 0),
   Instr.cx (Qubit.data 0) (Qubit.mz 0),
   Instr.cx (Qubit.data 4) (Qubit.mz 0),
   Instr.cx (Qubit.data 3) (Qubit.mz 0),
   Instr.h (Qubit.mx 0),
   Instr.h (Qubit.mx 1),
   Instr.cx (Qubit.mx 1) (Qubit.data 2),
   Instr.cx (Qubit.mx 1) (Qubit.data 1),
   Instr.cx (Qubit.mx 1) (Qubit.data 5),
   Instr.cx (Qubit.mx 1) (Qubit.data 4),
   Instr.cx (Qubit.data 2) (Qubit.mz 1),
   Instr.cx (Qubit.data 5) (Qubit.mz 1),
   Instr.h (Qubit.mx 1),
   Instr.h (Qubit.mx 2),
   Instr.cx (Qubit.data 3) (Qubit.mz 2),
   Instr.cx (Qubit.data 6) (Qubit.mz 2),
   Instr.cx (Qubit.mx 2) (Qubit.data 4),
   Instr.cx (Qubit.mx 2) (Qubit.data 3),
   Instr.cx (Qubit.mx 2) (Qubit.data 7),
   Instr.cx (Qubit.mx 2) (Qubit.data 6),
   Instr.h (Qubit.mx 2),
   Instr.h (Qubit.mx 3),
   Instr.cx (Qubit.mx 3) (Qubit.data 8),
   Instr.cx (Qubit.mx 3) (Qubit.data 7),
   Instr.cx (Qubit.data 5) (Qubit.mz 3),
   Instr.cx (Qubit.data 4) (Qubit.mz 3),
   Instr.cx (Qubit.data 8) (Qubit.mz 3),
   Instr.cx (Qubit.data 7) (Qubit.mz 3),
   Instr.h (Qubit.mx 3),
   Instr.barrier,
   Instr.measure (Qubit.mz 0) (i, 0),
   Instr.measure (Qubit.mz 1) (i, 1),
   Instr.measure (Qubit.mz 2) (i, 2),
   Instr.measure (Qubit.mz 3) (i, 3),
   Instr.measure (Qubit.mx 0) (i, 4),
   Instr.measure (Qubit.mx 1) (i, 5),
   Instr.measure (Qubit.mx 2) (i, 6),
   Instr.measure (Qubit.mx 3) (i, 7),
   Instr.reset (Qubit.mz 0),
   Instr.reset (Qubit.mz 1),
   Instr.reset (Qubit.mz 2),
   Instr.reset (Qubit.mz 3),
   Instr.reset (Qubit.mx 0),
   Instr.reset (Qubit.mx 1),
   Instr.reset (Qubit.mx 2),
   Instr.reset (Qubit.mx 3),
   Instr.barrier]

/-- The notebook's `stabilize(circ, i)`: appends one stabilization round's
instructions to the circuit it is given (its only effect on state). -/
def stabilize (circ : Circuit) (i : Nat) : Circuit :=
  circ ++ stabRound i

/-- Qiskit's `QuantumCircuit.copy`: a value copy, so that later appends to
the copy are invisible through the original reference. -/
def copyCirc (c : Circuit) : Circuit := c

/-- The notebook's `get_stabilized_circ(base_circuit, rounds)`, with the
heap made explicit: the first component is the value held by the caller's
`base_circuit` reference after the call, the second the returned circuit.
The body copies the base circuit, runs `stabilize` on the copy for
`rounds + 1` rounds, and returns the copy. -/
def get_stabilized_circ (base_circuit : Circuit) (rounds : Nat) : Circuit × Circuit :=
  let circ := copyCirc base_circuit
  let circ2 := (List.range (rounds + 1)).foldl stabilize circ
  (base_circuit, circ2)

/-! Supporting lemmas. -/

theorem foldl_stabilize (l : List Nat) (c : Circuit) :
    l.foldl stabilize c = c ++ (l.map stabRound).flatten := by
  induction l generalizing c with
  | nil => simp
  | cons a l ih => simp [stabilize, ih]

theorem argminFirst_le {α : Type} (f : α → Nat) (l : List α) (x : α) (hx : x ∈ l) :
    ∃ r, argminFirst f l = some r ∧ f r ≤ f x := by
  induction l with
  | nil => cases hx
  | cons a rest ih =>
      rcases List.mem_cons.mp hx with hxa | hxr
      · subst hxa
        unfold argminFirst
        cases h : argminFirst f rest with
        | none => exact ⟨x, rfl, le_refl _⟩
        | some b =>
            by_cases hab : f x ≤ f b
            · exact ⟨x, by simp [hab], le_refl _⟩
            · exact ⟨b, by simp [hab], le_of_not_le hab⟩
      · obtain ⟨r, hr, hle⟩ := ih hxr
        unfold argminFirst
        rw [hr]
        by_cases hab : f a ≤ f r
        · exact ⟨a, by simp [hab], le_trans hab hle⟩
        · exact ⟨r, by simp [hab], hle⟩

theorem all_false_getD (l : List Bool) (h : ∀ b ∈ l, b = false) (j : Nat) :
    l.getD j false = false := by
  induction l generalizing j with
  | nil => rfl
  | cons b rest ih =>
      cases j with
      | zero => exact h b (List.mem_cons_self _ _)
      | succ j => exact ih (fun x hx => h x (List.mem_cons_of_mem _ hx)) j

theorem diffPositions_all_false (prev cur : List Bool)
    (hp : ∀ b ∈ prev, b = false) (hc : ∀ b ∈ cur, b = false) :
    diffPositions prev cur = [] := by
  unfold diffPositions
  rw [List.filter_eq_nil_iff]
  intro j _
  rw [all_false_getD prev hp j, all_false_getD cur hc j]
  simp

theorem extractAux_all_false (d : Nat) (prev : List Bool) (t : Nat)
    (rounds : List (List Bool)) (hp : ∀ b ∈ prev, b = false)
    (hr : ∀ r ∈ rounds, ∀ b ∈ r, b = false) :
    extractAux d prev t rounds = [] := by
  induction rounds generalizing prev t with
  | nil => rfl
  | cons r rest ih =>
      unfold extractAux
      rw [diffPositions_all_false prev r hp (hr r (List.mem_cons_self _ _))]
      rw [ih r (t + 1) (hr r (List.mem_cons_self _ _))
        (fun s hs => hr s (List.mem_cons_of_mem _ hs))]
      rfl

theorem extract_nodes_zeroOutcome (d T ns : Nat) (ro : Bool) :
    extract_nodes d (zeroOutcome ro T ns) = ([], []) := by
  unfold extract_nodes zeroOutcome
  have hz : ∀ r ∈ List.replicate T (List.replicate ns false), ∀ b ∈ r, b = false := by
    intro r hrr b hb
    rw [List.eq_of_mem_replicate hrr] at hb
    exact List.eq_of_mem_replicate hb
  rw [extractAux_all_false d [] 1 _ (by simp) hz]

theorem corrected_readout_zeroOutcome (dec : GraphDecoder) (ro : Bool) (T ns : Nat) :
    corrected_readout dec (zeroOutcome ro T ns) = ro := by
  unfold corrected_readout
  rw [extract_nodes_zeroOutcome dec.d T ns ro]
  simp [net_qubit_flips, zeroOutcome]

theorem argminFirst_mem {α : Type} (f : α → Nat) (l : List α) (r : α)
    (h : argminFirst f l = some r) : r ∈ l := by
  induction l generalizing r with
  | nil => cases h
  | cons a rest ih =>
      unfold argminFirst at h
      split at h
      · exact (Option.some_inj.mp h) ▸ List.mem_cons_self a rest
      · rename_i b heq
        split at h
        · exact (Option.some_inj.mp h) ▸ List.mem_cons_self a rest
        · exact List.mem_cons_of_mem a ((Option.some_inj.mp h) ▸ ih b heq)

theorem lookupPair_map_self {α β : Type} [DecidableEq α] (f : α → β) (l : List α)
    (x : α) (hx : x ∈ l) :
    lookupPair x (l.map (fun a => (a, f a))) = some (f x) := by
  induction l with
  | nil => cases hx
  | cons a rest ih =>
      rw [List.map_cons]
      unfold lookupPair
      by_cases hax : a = x
      · subst hax
        simp
      · rw [if_neg hax]
        rcases List.mem_cons.mp hx with hxa | hxr
        · exact absurd hxa.symm hax
        · exact ih hxr

theorem orderedPairs_sublist {α : Type} {l₁ l₂ : List α} (h : l₁.Sublist l₂) :
    (orderedPairs l₁).Sublist (orderedPairs l₂) := by
  induction h with
  | slnil => exact List.Sublist.refl _
  | cons a h ih =>
      exact ih.trans (List.sublist_append_right _ _)
  | cons₂ a h ih =>
      exact List.Sublist.append (List.Sublist.map _ h) ih

theorem pairingsFuel_subset_orderedPairs {α : Type} [DecidableEq α] (n : Nat) :
    ∀ (l : List α), ∀ m ∈ pairingsFuel n l, ∀ p ∈ m, p ∈ orderedPairs l := by
  induction n with
  | zero =>
      intro l m hm p hp
      cases l with
      | nil =>
          rw [List.mem_singleton.mp hm] at hp
          cases hp
      | cons a rest => cases hm
  | succ n ih =>
      intro l m hm p hp
      cases l with
      | nil =>
          rw [List.mem_singleton.mp hm] at hp
          cases hp
      | cons a rest =>
          unfold pairingsFuel at hm
          rw [List.mem_flatten] at hm
          obtain ⟨L, hL, hmL⟩ := hm
          rw [List.mem_map] at hL
          obtain ⟨b, hb, rfl⟩ := hL
          rw [List.mem_map] at hmL
          obtain ⟨m', hm', rfl⟩ := hmL
          rcases List.mem_cons.mp hp with rfl | hp'
          · unfold orderedPairs
            exact List.mem_append_left _ (List.mem_map.mpr ⟨b, hb, rfl⟩)
          · have hmem := ih (rest.erase b) m' hm' p hp'
            have hsub : (orderedPairs (rest.erase b)).Sublist (orderedPairs rest) :=
              orderedPairs_sublist (List.erase_sublist b rest)
            unfold orderedPairs
            exact List.mem_append_right _ (hsub.subset hmem)

theorem pairings_subset_orderedPairs {α : Type} [DecidableEq α] (l : List α)
    (m : List (α × α)) (hm : m ∈ pairings l) (p : α × α) (hp : p ∈ m) :
    p ∈ orderedPairs l :=
  pairingsFuel_subset_orderedPairs l.length l m hm p hp

theorem matching_mem (dec : GraphDecoder) (g : Graph) (key : String)
    (p : Node × Node) (hp : p ∈ dec.matching g key) :
    dec.matching g key ∈ pairings g.nodes ∧ p ∈ orderedPairs g.nodes := by
  unfold GraphDecoder.matching at hp ⊢
  cases h : argminFirst (weightOf g) (pairings g.nodes) with
  | none =>
      rw [h] at hp
      cases hp
  | some r =>
      rw [h] at hp
      simp only [Option.getD_some] at hp ⊢
      have hr := argminFirst_mem _ _ _ h
      exact ⟨hr, pairings_subset_orderedPairs g.nodes r hr p hp⟩

theorem mem_applyChain (ch : List Qb) (s : Finset Qb) (q : Qb) :
    q ∈ applyChain s ch ↔ ((q ∈ s) ↔ Even (ch.count q)) := by
  induction ch generalizing s with
  | nil => simp [applyChain]
  | cons a ch ih =>
      rw [show applyChain s (a :: ch) = applyChain (toggle s a) ch from rfl, ih]
      by_cases hqa : q = a
      · subst hqa
        have ht : (q ∈ toggle s q) ↔ ¬ (q ∈ s) := by
          unfold toggle
          by_cases hq : q ∈ s <;> simp [hq]
        rw [ht]
        simp only [List.count_cons, beq_self_eq_true, if_pos, Nat.even_add_one]
        tauto
      · have ht : (q ∈ toggle s a) ↔ q ∈ s := by
          unfold toggle
          by_cases ha : a ∈ s <;> simp [ha, hqa]
        rw [ht, List.count_cons]
        have hne : (a == q) = false := beq_eq_false_iff_ne.mpr (fun hh => hqa hh.symm)
        rw [hne]
        simp

theorem mem_foldl_applyChain (ms : List (Node × Node)) (paths : PathMap)
    (s : Finset Qb) (q : Qb) :
    q ∈ ms.foldl (fun s p => applyChain s ((lookupPair p paths).getD [])) s ↔
      ((q ∈ s) ↔ Even ((ms.map (fun p => (lookupPair p paths).getD [])).flatten.count q)) := by
  induction ms generalizing s with
  | nil => simp
  | cons p ms ih =>
      rw [List.foldl_cons, ih, mem_applyChain]
      rw [List.map_cons, List.flatten_cons, List.count_append, Nat.even_add]
      tauto

theorem branchFlips_eq (dec : GraphDecoder) (xe ze : List Coord) :
    branchFlips dec xe ze =
      [("X", if xe ≠ [] then decodeOne dec xe "X" else ∅),
       ("Z", if ze ≠ [] then decodeOne dec ze "Z" else ∅)] := by
  unfold branchFlips
  simp only [List.foldl_cons, List.foldl_nil]
  rw [show dictInsert ([] : List (String × Finset Qb)) "X"
      (if xe ≠ [] then decodeOne dec xe "X" else ∅) =
      [("X", if xe ≠ [] then decodeOne dec xe "X" else ∅)] from rfl]
  unfold dictInsert
  rw [if_neg (by decide : ¬ ("X" : String) = "Z")]
  rfl

/-! Claim theorems. -/

/-- C4: `logical_error_rate` applied to a histogram consisting entirely of
the all-zero-syndrome outcome, with the expected logical value matching the
raw readout bit, returns exactly 0. -/
theorem logical_error_rate_zero_syndrome (dec : GraphDecoder) (ro : Bool) (T ns n : Nat) :
    logical_error_rate dec [(zeroOutcome ro T ns, n)] ro = 0 := by
  unfold logical_error_rate mismatch_weight
  simp [corrected_readout_zeroOutcome]

/-- C5: `logical_error_rate` is a normalized ratio — multiplying every
occurrence count of the histogram by the same positive factor leaves the
returned rate unchanged. -/
theorem logical_error_rate_scale_invariant (dec : GraphDecoder)
    (hist : List (Outcome × Nat)) (expected : Bool) (k : Nat) (hk : 0 < k) :
    logical_error_rate dec (hist.map (fun oc => (oc.1, k * oc.2))) expected =
      logical_error_rate dec hist expected := by
  have h1 : (hist.map (fun oc => (oc.1, k * oc.2))).map (mismatch_weight dec expected) =
      hist.map (fun oc => k * mismatch_weight dec expected oc) := by
    rw [List.map_map]
    apply List.map_congr_left
    intro oc _
    simp only [Function.comp_apply, mismatch_weight, mul_ite, mul_zero]
  have h2 : (hist.map (fun oc => (oc.1, k * oc.2))).map Prod.snd =
      hist.map (fun oc => k * oc.2) := by
    rw [List.map_map]
    rfl
  unfold logical_error_rate
  rw [h1, h2, List.sum_map_mul_left, List.sum_map_mul_left]
  push_cast
  rw [mul_div_mul_left _ _ (by exact_mod_cast Nat.pos_iff_ne_zero.mp hk)]

/-- Witness for C5: scaling a concrete one-entry histogram by 2 leaves the
rate unchanged. -/
theorem logical_error_rate_scale_invariant_witness :
    logical_error_rate ⟨3, 3, false⟩
        ([(zeroOutcome false 2 4, 40)].map (fun oc => (oc.1, 2 * oc.2))) false =
      logical_error_rate ⟨3, 3, false⟩ [(zeroOutcome false 2 4, 40)] false :=
  logical_error_rate_scale_invariant ⟨3, 3, false⟩ [(zeroOutcome false 2 4, 40)] false 2
    (by decide)

/-- C8: for every input histogram and expected logical value, the value
returned by `logical_error_rate` lies in the closed interval `[0, 1]`. -/
theorem logical_error_rate_in_unit_interval (dec : GraphDecoder)
    (hist : List (Outcome × Nat)) (expected : Bool) :
    0 ≤ logical_error_rate dec hist expected ∧
      logical_error_rate dec hist expected ≤ 1 := by
  have hle : (hist.map (mismatch_weight dec expected)).sum ≤ (hist.map Prod.snd).sum := by
    apply List.sum_le_sum
    intro oc _
    unfold mismatch_weight
    split <;> omega
  constructor
  · unfold logical_error_rate
    apply div_nonneg <;> exact Nat.cast_nonneg _
  · unfold logical_error_rate
    rcases Nat.eq_zero_or_pos (hist.map Prod.snd).sum with h0 | hpos
    · rw [h0]
      have : (hist.map (mismatch_weight dec expected)).sum = 0 := by omega
      rw [this]
      norm_num
    · rw [div_le_one (by exact_mod_cast hpos)]
      exact_mod_cast hle

/-- C3: the Matcher is deterministic — its result is a function of the
graph alone (independent even of the decoder instance and error-type key),
and the pairing it returns has minimum total weight among all pairings of
the graph's nodes enumerated in the fixed node ordering. -/
theorem matching_deterministic (dec dec' : GraphDecoder) (g g' : Graph)
    (key key' : String) (h : g = g') :
    dec.matching g key = dec'.matching g' key' ∧
    ∀ m ∈ pairings g.nodes, weightOf g (dec.matching g key) ≤ weightOf g m := by
  subst h
  refine ⟨rfl, ?_⟩
  intro m hm
  obtain ⟨r, hr, hle⟩ := argminFirst_le (weightOf g) _ m hm
  unfold GraphDecoder.matching
  rw [hr]
  exact hle

/-- Witness for C3 at a concrete graph. -/
theorem matching_deterministic_witness :
    (GraphDecoder.mk 3 3 true).matching ⟨[], edgeWeight⟩ "X" =
      (GraphDecoder.mk 3 3 false).matching ⟨[], edgeWeight⟩ "Z" ∧
    ∀ m ∈ pairings (Graph.mk [] edgeWeight).nodes,
      weightOf ⟨[], edgeWeight⟩ ((GraphDecoder.mk 3 3 true).matching ⟨[], edgeWeight⟩ "X") ≤
        weightOf ⟨[], edgeWeight⟩ m :=
  matching_deterministic ⟨3, 3, true⟩ ⟨3, 3, false⟩ ⟨[], edgeWeight⟩ ⟨[], edgeWeight⟩
    "X" "Z" rfl

/-- C9: `get_stabilized_circ` never mutates its base-circuit argument — it
copies the base circuit, appends `rounds + 1` stabilization rounds to the
copy, and returns the copy, leaving the original unchanged. -/
theorem get_stabilized_circ_preserves_base (base : Circuit) (rounds : Nat) :
    (get_stabilized_circ base rounds).1 = base ∧
    (get_stabilized_circ base rounds).2 =
      base ++ ((List.range (rounds + 1)).map stabRound).flatten ∧
    ((List.range (rounds + 1)).map stabRound).length = rounds + 1 := by
  refine ⟨rfl, ?_, by simp⟩
  unfold get_stabilized_circ copyCirc
  exact foldl_stabilize _ _

/-- C10: in `full_loop`, for each decoder branch the `flips` dictionary
passed to `net_qubit_flips` contains exactly the two keys `"X"` and `"Z"`,
in that order, regardless of which error types had defects. -/
theorem branchFlips_keys (dec : GraphDecoder) (xe ze : List Coord) :
    (branchFlips dec xe ze).map Prod.fst = ["X", "Z"] := by
  rw [branchFlips_eq]
  rfl

/-- C2: a sample with zero defects of a given error type gets an empty flip
map for that type without any matching being performed (the entry is the
same for every decoder instance), and when both error types have zero
defects the merged correction map returned by `net_qubit_flips` is
empty. -/
theorem empty_defects_empty_flips (dec : GraphDecoder) (xe ze : List Coord) :
    (xe = [] → lookupPair "X" (branchFlips dec xe ze) = some ∅) ∧
    (ze = [] → lookupPair "Z" (branchFlips dec xe ze) = some ∅) ∧
    (xe = [] → ze = [] →
      fullLoopNet dec xe ze = ∅ ∧
      ∀ dec' : GraphDecoder, branchFlips dec xe ze = branchFlips dec' xe ze) := by
  refine ⟨?_, ?_, ?_⟩
  · intro hx
    rw [branchFlips_eq]
    simp [lookupPair, hx]
  · intro hz
    rw [branchFlips_eq]
    unfold lookupPair
    rw [if_neg (by decide : ¬ ("X" : String) = "Z")]
    simp [lookupPair, hz]
  · intro hx hz
    constructor
    · unfold fullLoopNet
      rw [branchFlips_eq]
      subst hx
      subst hz
      simp [lookupPair, net_qubit_flips]
    · intro dec'
      rw [branchFlips_eq, branchFlips_eq, hx, hz]
      simp

/-- Witness for C2 with both defect sets empty. -/
theorem empty_defects_empty_flips_witness :
    lookupPair "X" (branchFlips ⟨3, 3, false⟩ [] []) = some ∅ ∧
    lookupPair "Z" (branchFlips ⟨3, 3, false⟩ [] []) = some ∅ ∧
    fullLoopNet ⟨3, 3, false⟩ [] [] = ∅ := by
  obtain ⟨h1, h2, h3⟩ := empty_defects_empty_flips ⟨3, 3, false⟩ [] []
  exact ⟨h1 rfl, h2 rfl, (h3 rfl rfl).1⟩

/-- C6: flip-map accumulation is XOR parity — a qubit belongs to the flip
map computed by `calculate_qubit_flips` exactly when it is touched an odd
number of times across all matched chains, and applying the same chain
twice to any flip map cancels to no flip. -/
theorem calculate_qubit_flips_parity (dec : GraphDecoder) (ms : List (Node × Node))
    (paths : PathMap) (key : String) (q : Qb) :
    (q ∈ dec.calculate_qubit_flips ms paths key ↔ Odd (chainTouches ms paths q)) ∧
    ∀ (s : Finset Qb) (ch : List Qb), applyChain (applyChain s ch) ch = s := by
  constructor
  · unfold GraphDecoder.calculate_qubit_flips chainTouches
    rw [mem_foldl_applyChain]
    rw [← Nat.not_even_iff_odd]
    simp only [Finset.not_mem_empty]
    tauto
  · intro s ch
    apply Finset.ext
    intro x
    rw [mem_applyChain, mem_applyChain]
    tauto

/-- C7: for a non-empty defect set, `make_error_graph` returns chain
information exactly in analytic mode — in simulated mode the chain payload
is `none`, while in analytic mode it is the full per-edge path map, holding
the explicit physical-qubit chain for every edge (ordered node pair) of the
graph. -/
theorem make_error_graph_mode_payload (dec : GraphDecoder) (errors : List Coord)
    (key : String) (_h : errors ≠ []) :
    ((dec.make_error_graph errors key).2 = none ↔ dec.simulation = true) ∧
    (dec.simulation = false →
      (dec.make_error_graph errors key).2 = some (allPaths (graphNodes dec errors key)) ∧
      ∀ p ∈ orderedPairs (graphNodes dec errors key),
        lookupPair p (allPaths (graphNodes dec errors key)) = some (chainOf p.1 p.2)) := by
  cases hs : dec.simulation with
  | false =>
      constructor
      · simp [GraphDecoder.make_error_graph, hs]
      · intro _
        constructor
        · simp [GraphDecoder.make_error_graph, hs]
        · intro p hp
          exact lookupPair_map_self (fun p => chainOf p.1 p.2) _ p hp
  | true =>
      simp [GraphDecoder.make_error_graph, hs]

/-- Witness for C7 at a concrete analytic decoder and one-defect set. -/
theorem make_error_graph_mode_payload_witness :
    (((⟨3, 3, false⟩ : GraphDecoder).make_error_graph [(0, 0, 1)] "X").2 = none ↔
      (⟨3, 3, false⟩ : GraphDecoder).simulation = true) ∧
    ((⟨3, 3, false⟩ : GraphDecoder).simulation = false →
      ((⟨3, 3, false⟩ : GraphDecoder).make_error_graph [(0, 0, 1)] "X").2 =
        some (allPaths (graphNodes ⟨3, 3, false⟩ [(0, 0, 1)] "X")) ∧
      ∀ p ∈ orderedPairs (graphNodes ⟨3, 3, false⟩ [(0, 0, 1)] "X"),
        lookupPair p (allPaths (graphNodes ⟨3, 3, false⟩ [(0, 0, 1)] "X")) =
          some (chainOf p.1 p.2)) :=
  make_error_graph_mode_payload ⟨3, 3, false⟩ [(0, 0, 1)] "X" (by decide)

/-- C1: cross-mode agreement — for a defect set feasible in both modes and
any pair of the minimum-weight matching computed in the simulated-mode
pipeline, the chain the Path Reconstructor (`analytic_paths`) produces for
that pair has the same length as the chain the analytic-mode graph builder
(`make_error_graph`) records for that same pair. -/
theorem cross_mode_chain_agreement (decS decA : GraphDecoder) (errors : List Coord)
    (key : String) (p : Node × Node) (hd : decS.d = decA.d)
    (ha : decA.simulation = false)
    (hp : p ∈ decS.matching
      (decS.matching_graph (decS.make_error_graph errors key).1 key) key) :
    ∃ ch ch',
      lookupPair p (decS.analytic_paths
        (decS.matching (decS.matching_graph (decS.make_error_graph errors key).1 key) key)
        key) = some ch ∧
      lookupPair p ((decA.make_error_graph errors key).2.getD []) = some ch' ∧
      ch.length = ch'.length := by
  have hnodes : (decS.make_error_graph errors key).1.nodes = graphNodes decS errors key := by
    unfold GraphDecoder.make_error_graph
    cases decS.simulation <;> rfl
  have hmg : decS.matching_graph (decS.make_error_graph errors key).1 key =
      (decS.make_error_graph errors key).1 := rfl
  rw [hmg] at hp
  obtain ⟨_, hpair⟩ := matching_mem decS (decS.make_error_graph errors key).1 key p hp
  rw [hnodes] at hpair
  have hA : graphNodes decA errors key = graphNodes decS errors key := by
    unfold graphNodes
    rw [← hd]
  refine ⟨chainOf p.1 p.2, chainOf p.1 p.2, ?_, ?_, rfl⟩
  · unfold GraphDecoder.analytic_paths
    rw [hmg]
    exact lookupPair_map_self (fun p => chainOf p.1 p.2) _ p hp
  · have h2 : (decA.make_error_graph errors key).2 =
        some (allPaths (graphNodes decA errors key)) := by
      unfold GraphDecoder.make_error_graph
      rw [ha]
      rfl
    rw [h2, Option.getD_some, hA]
    exact lookupPair_map_self (fun p => chainOf p.1 p.2) _ p hpair

/-- Witness for C1: a single defect on the distance-3 lattice, matched with
its virtual boundary node. -/
theorem cross_mode_chain_agreement_witness :
    ∃ ch ch',
      lookupPair ((false, (0, 0, 1)), (true, (0, 0, 1)))
        ((⟨3, 3, true⟩ : GraphDecoder).analytic_paths
          ((⟨3, 3, true⟩ : GraphDecoder).matching
            ((⟨3, 3, true⟩ : GraphDecoder).matching_graph
              ((⟨3, 3, true⟩ : GraphDecoder).make_error_graph [(0, 0, 1)] "X").1 "X")
            "X") "X") = some ch ∧
      lookupPair ((false, (0, 0, 1)), (true, (0, 0, 1)))
        (((⟨3, 3, false⟩ : GraphDecoder).make_error_graph [(0, 0, 1)] "X").2.getD []) =
        some ch' ∧
      ch.length = ch'.length :=
  cross_mode_chain_agreement ⟨3, 3, true⟩ ⟨3, 3, false⟩ [(0, 0, 1)] "X"
    ((false, (0, 0, 1)), (true, (0, 0, 1))) rfl rfl (by decide)

end SurfaceCodes
